/-
Verification of the query/response translation core of the merico-dev/graphql
Go package (src/query.go and src/graphql.go) against its specification.

Embedding conventions:
  - Go `reflect.Type` values are embedded as the inductive `GoType`; struct
    field metadata (name, anonymity, `graphql` / `graphql-extend` tags) is
    carried by `GoField`.
  - Go `map[string]interface{}` values are embedded as association lists in
    iteration order; Go map iteration order is unspecified, so the list order
    represents one admissible iteration order and order-dependent behaviour is
    analysed by quantifying over (or instantiating) that order.
  - Runtime values (`interface{}`) relevant to the compiler are embedded as
    `GoVal`: either a repetition group (`[]map[string]interface{}`) or any
    other value carrying only its dynamic type.
  - JSON values in raw responses are embedded as `JVal`.
  - Go panics (failed type assertions) are embedded as `Except.error`; no
    other error source exists in the modelled code paths.
-/
import Mathlib

namespace MericoGraphql

/-! ## Association lists standing for Go maps (in iteration order) -/

/-- Lookup in an association list, the model of Go map indexing `m[k]`. -/
def mapLookup {α : Type} : List (String × α) → String → Option α
  | [], _ => none
  | (k', v) :: rest, k => if k' = k then some v else mapLookup rest k

/-- Model of a Go map write `m[k] = v`: overwrites the binding in place when
the key is present, otherwise appends the new binding. -/
def mapInsert {α : Type} : List (String × α) → String → α → List (String × α)
  | [], k, v => [(k, v)]
  | (k', v') :: rest, k, v =>
    if k' = k then (k, v) :: rest else (k', v') :: mapInsert rest k v

/-- Model of Go `delete(m, k)`. -/
def mapErase {α : Type} : List (String × α) → String → List (String × α)
  | [], _ => []
  | (k', v') :: rest, k =>
    if k' = k then mapErase rest k else (k', v') :: mapErase rest k

/-! ## The data model: Go types, runtime values, JSON values -/

mutual

/-- Embedding of the `reflect.Type` views used by src/query.go: pointer,
slice and array wrappers, named (non-composite) kinds carrying `t.Name()`,
and struct kinds carrying `t.Name()`, whether `reflect.PtrTo(t)` implements
`json.Unmarshaler`, and the declared field list. -/
inductive GoType : Type where
  | ptr : GoType → GoType
  | slice : GoType → GoType
  | array : GoType → GoType
  | named : String → GoType
  | struct_ : String → Bool → GoFields → GoType

/-- Ordered list of struct fields (declaration order). -/
inductive GoFields : Type where
  | nil : GoFields
  | cons : GoField → GoFields → GoFields

/-- One struct field: its Go identifier, its `Anonymous` flag, the optional
`graphql` tag, the optional `graphql-extend` tag, and its type. -/
inductive GoField : Type where
  | mk : String → Bool → Option String → Option String → GoType → GoField

end

/-- Embedding of the runtime `interface{}` values held in a variable mapping:
either a repetition group (a Go `[]map[string]interface{}`, an ordered list of
sub-mappings) or any other value, of which only the dynamic type matters to
the compiler. -/
inductive GoVal : Type where
  | group : List (List (String × GoVal)) → GoVal
  | prim : GoType → GoVal

/-- A variable mapping (Go `map[string]interface{}`) in iteration order. -/
abbrev VarMap : Type := List (String × GoVal)

/-- Dynamic type of a runtime value, the model of `reflect.TypeOf(v)`.
A repetition group is a `[]map[string]interface{}`, a slice whose element is
an unnamed map kind (`Name()` is the empty string). -/
def GoVal.typeOf : GoVal → GoType
  | .group _ => .slice (.named "")
  | .prim t => t

/-- Embedding of the JSON values appearing in a raw response object. -/
inductive JVal : Type where
  | null : JVal
  | bool : Bool → JVal
  | num : Int → JVal
  | str : String → JVal
  | arr : List JVal → JVal
  | obj : List (String × JVal) → JVal

/-- A raw response object (Go `map[string]interface{}` after `json.Unmarshal`)
in iteration order. -/
abbrev JMap : Type := List (String × JVal)

/-! ## String helpers used by the compiler -/

/-- Modelled from the spec: the naming-convention utility
`ident.ParseMixedCaps(f.Name).ToLowerCamelCase()` lives in the `ident`
package, which is not under src/; the spec treats it as a pure function
returning the lowerCamelCase form of the identifier, whose examples lowercase
the leading character (Foo becomes foo, BarBaz becomes barBaz). -/
def toLowerCamelCase (s : String) : String :=
  match s.data with
  | [] => ""
  | c :: rest => String.mk (c.toLower :: rest)

/-- Characters that terminate the variable-name portion of a `graphql` tag,
the set scanned by `strings.IndexAny(graphqlValue, "(:[$!@")`. -/
def isTagStop (c : Char) : Bool :=
  c = '(' ∨ c = ':' ∨ c = '[' ∨ c = '$' ∨ c = '!' ∨ c = '@'

/-- Prefix of the character list before the first stop character. -/
def varHeadAux : List Char → List Char
  | [] => []
  | c :: rest => if isTagStop c then [] else c :: varHeadAux rest

/-- The variable-name portion of a `graphql` tag value: the prefix before the
first occurrence of any of `( : [ $ ! @`, or the whole tag when none occurs
(`strings.IndexAny` returning -1). -/
def varHead (s : String) : String := String.mk (varHeadAux s.data)

/-- Prefix of the character list strictly before the first occurrence of the
two-character separator `__`, or `none` when `__` does not occur. -/
def splitPreAux : List Char → Option (List Char)
  | [] => none
  | '_' :: '_' :: _ => some []
  | c :: rest => Option.map (fun l => c :: l) (splitPreAux rest)

/-- Model of `index := strings.Index(k, "__")` followed by `k[:index]`:
returns the portion of the key before the first `__`, or `none` when the key
contains no `__` (index -1). -/
def splitPre (s : String) : Option String := Option.map String.mk (splitPreAux s.data)

/-- Replacement of every occurrence of the character `$` by the replacement
text, over a character list. -/
def replaceDollarAux (repl : List Char) : List Char → List Char
  | [] => []
  | c :: rest =>
    if c = '$' then repl ++ replaceDollarAux repl rest
    else c :: replaceDollarAux repl rest

/-- Model of `strings.ReplaceAll(s, "$", repl)`: every occurrence of the
one-character pattern `$` is replaced by `repl`. -/
def replaceDollar (s repl : String) : String :=
  String.mk (replaceDollarAux repl.data s.data)

/-- Byte-wise (equivalently, code-point-wise, since UTF-8 preserves code-point
order) lexicographic comparison of character lists, the order used by Go's
`sort.Strings`. -/
def charListLe : List Char → List Char → Bool
  | [], _ => true
  | _ :: _, [] => false
  | a :: as, b :: bs => if a = b then charListLe as bs else decide (a < b)

/-- Lexicographic order on strings as a proposition. -/
def strLe (a b : String) : Prop := charListLe a.data b.data = true

instance : DecidableRel strLe := fun a b => instDecidableEqBool (charListLe a.data b.data) true

/-- Concatenation of the suffix copies after the first one: each element
preceded by a comma (the `if i != 0` comma of the Go loops). -/
def commaPre : List String → String
  | [] => ""
  | s :: rest => "," ++ s ++ commaPre rest

/-- Comma-join of a list of emissions, exactly the text produced by a Go loop
writing `,` before every iteration except the first. -/
def commaJoin : List String → String
  | [] => ""
  | s :: rest => s ++ commaPre rest

/-! ## Argument encoder (queryArguments, writeArgumentType) -/

/-- Embedding of `writeArgumentType(w, t, value)`: pointers drop the required
marker and recurse, slices and arrays wrap the element type in brackets, any
other kind emits `t.Name()` with the `string`-to-`ID` compatibility override,
and a trailing `!` is emitted for required (value) positions. -/
def writeArgumentType : GoType → Bool → String
  | .ptr t, _ => writeArgumentType t false
  | .slice t, value => "[" ++ writeArgumentType t true ++ "]" ++ (if value then "!" else "")
  | .array t, value => "[" ++ writeArgumentType t true ++ "]" ++ (if value then "!" else "")
  | .named n, value => (if n = "string" then "ID" else n) ++ (if value then "!" else "")
  | .struct_ n _ _, value => (if n = "string" then "ID" else n) ++ (if value then "!" else "")

/-- Model of `sort.Strings`: sorting in lexicographic (byte/code-point) order. -/
def sortStrings (l : List String) : List String := List.insertionSort strLe l

/-- The `$name:Type` segment emitted for one variable: the type is derived
from `reflect.TypeOf(variables[k])` (the `none` branch is unreachable since
keys are drawn from the mapping itself). -/
def argSegment (vars : VarMap) (k : String) : String :=
  "$" ++ k ++ ":" ++
    writeArgumentType (match mapLookup vars k with
      | some v => v.typeOf
      | none => GoType.named "") true

/-- Embedding of `queryArguments(variables)`: keys are collected, sorted with
`sort.Strings`, and the per-variable segments are concatenated with no
separator. -/
def queryArguments (vars : VarMap) : String :=
  String.join ((sortStrings (vars.map Prod.fst)).map (argSegment vars))

/-! ## Query compiler (writeQuery and the per-field emission) -/

/-- The `graphqlValue` computed for a field: empty for an inline (anonymous,
untagged) field, the tag text verbatim when the `graphql` tag is present,
else the lowerCamelCase of the field identifier. -/
def fieldValue (fname : String) (anon : Bool) (tagG : Option String) : String :=
  if anon && !tagG.isSome then ""
  else
    match tagG with
    | some v => v
    | none => toLowerCamelCase fname

/-- The `graphqlVar` computed for a field: empty for an inline field, the
variable-name portion of the tag when the `graphql` tag is present, else the
empty string (the Go code assigns the zero-value `value` of the failed tag
lookup). -/
def fieldVar (anon : Bool) (tagG : Option String) : String :=
  if anon && !tagG.isSome then ""
  else
    match tagG with
    | some v => varHead v
    | none => ""

mutual

/-- Embedding of `writeQuery(w, t, inline, variables)`. Pointers and slices
recurse on the element with the inline flag reset; arrays and named
(non-struct) kinds emit nothing; a struct whose pointer type implements
`json.Unmarshaler` is a custom scalar and emits nothing; other structs wrap
their field emissions in braces unless inlined. The result is the text the Go
code writes to the buffer; `Except.error` models a panic (failed type
assertion), in which case no document is produced. -/
def writeQuery : GoType → Bool → VarMap → Except String String
  | .ptr t, _, vars => writeQuery t false vars
  | .slice t, _, vars => writeQuery t false vars
  | .array _, _, _ => .ok ""
  | .named _, _, _ => .ok ""
  | .struct_ _ impl fs, inline, vars =>
    if impl then .ok ""
    else
      match writeFields fs true vars with
      | .error e => .error e
      | .ok body =>
        .ok ((if inline then "" else "\x7b") ++ body ++ (if inline then "" else "\x7d"))

/-- Emission of a struct's field list: a comma is written before every field
except the first (`if i != 0`), then the field's own emission, empty or not. -/
def writeFields : GoFields → Bool → VarMap → Except String String
  | .nil, _, _ => .ok ""
  | .cons f fs, first, vars =>
    match writeField f vars with
    | .error e => .error e
    | .ok s =>
      match writeFields fs false vars with
      | .error e => .error e
      | .ok rest => .ok ((if first then "" else ",") ++ s ++ rest)

/-- Emission of a single field. A field whose `graphql-extend` tag equals
`true` is repeat-expanded: the variable named by its `graphqlVar` must be
bound to a repetition group (otherwise the type assertion
`variables[graphqlVar].([]map[string]interface{})` panics, modelled as
`Except.error`), and one aliased copy per group element is emitted, the
copies separated by commas, each copy substituting `$` by the
index-disambiguated `$graphqlVar__i__` inside the tag text. A non-expanded
field emits its name (unless inline) followed by the recursive emission of
its type. The recursive emission is hoisted out of the copy loop because it
is the same pure computation at every index; when the group is empty the loop
body never runs, so nothing is emitted and no nested panic can occur. -/
def writeField : GoField → VarMap → Except String String
  | .mk fname anon tagG tagE ty, vars =>
    let inlineField := anon && !tagG.isSome
    if tagE = some "true" then
      match mapLookup vars (fieldVar anon tagG) with
      | some (.group ms) =>
        if ms.length = 0 then .ok ""
        else
          match writeQuery ty inlineField vars with
          | .error e => .error e
          | .ok sub =>
            .ok (commaJoin ((List.range ms.length).map (fun i =>
              fieldVar anon tagG ++ "__" ++ toString i ++ ":" ++
              (if inlineField then ""
               else replaceDollar (fieldValue fname anon tagG)
                 ("$" ++ fieldVar anon tagG ++ "__" ++ toString i ++ "__")) ++ sub)))
      | _ => .error "interface conversion: the variable bound to a repeat-expanded field is absent or not a repetition group"
    else
      match writeQuery ty inlineField vars with
      | .error e => .error e
      | .ok sub => .ok ((if inlineField then "" else fieldValue fname anon tagG) ++ sub)

end

/-- Embedding of `query(v, variables)`: the selection set compiled from the
type of `v` with the inline flag initially false. -/
def queryStr (t : GoType) (vars : VarMap) : Except String String :=
  writeQuery t false vars

/-! ## Variable-mapping rewriting and the two construction entry points -/

/-- The disambiguated flat key `fmt.Sprintf("%s__%d__%s", k, index, subKey)`. -/
def flatKey (k : String) (i : Nat) (sk : String) : String :=
  k ++ "__" ++ toString i ++ "__" ++ sk

/-- Flattened pairs of a repetition group starting at index `i`: for each
sub-mapping in order, one pair per sub-key, keyed by the disambiguated flat
key. -/
def explodeAux (k : String) : Nat → List (List (String × GoVal)) → List (String × GoVal)
  | _, [] => []
  | i, m :: rest => m.map (fun p => (flatKey k i p.1, p.2)) ++ explodeAux k (i + 1) rest

/-- The pairs one entry of the original mapping contributes to the rewritten
mapping: a repetition group is exploded into its flattened pairs, any other
entry is carried over as itself. -/
def explodeEntry : String × GoVal → List (String × GoVal)
  | (k, .group ms) => explodeAux k 0 ms
  | (k, v) => [(k, v)]

/-- All pairs written into `newVariables`, in the order the nested Go loops
produce them. -/
def producedPairs : VarMap → List (String × GoVal)
  | [] => []
  | e :: rest => explodeEntry e ++ producedPairs rest

/-- Sequential map writes, the model of inserting each produced pair into the
`newVariables` map in order. -/
def insertAll (acc : VarMap) : List (String × GoVal) → VarMap
  | [] => acc
  | (k, v) :: rest => insertAll (mapInsert acc k v) rest

/-- Embedding of the rewriting loop of `ConstructQuery`: `newVariables`
starts empty and receives, for each entry in iteration order, either the
flattened pairs of its repetition group or the entry itself. -/
def rewriteVariables (vars : VarMap) : VarMap :=
  insertAll [] (producedPairs vars)

/-- Embedding of `ConstructQuery(v, variables)`: the selection set is
compiled first (a panic there aborts everything); with a non-empty mapping
the rewritten mapping is built and the document is
`query(<args of the rewritten mapping>)<selection>`, returned together with
the rewritten mapping; with an empty mapping the bare selection set and the
unchanged mapping are returned. -/
def ConstructQuery (t : GoType) (vars : VarMap) : Except String (String × VarMap) :=
  match queryStr t vars with
  | .error e => .error e
  | .ok q =>
    if vars.length > 0 then
      .ok ("query(" ++ queryArguments (rewriteVariables vars) ++ ")" ++ q, rewriteVariables vars)
    else
      .ok (q, vars)

/-- Embedding of `ConstructMutation(v, variables)`: no rewriting; with a
non-empty mapping the document is `mutation(<args of the original
mapping>)<selection>`, with an empty mapping it is `mutation<selection>`. -/
def ConstructMutation (t : GoType) (vars : VarMap) : Except String String :=
  match queryStr t vars with
  | .error e => .error e
  | .ok q =>
    if vars.length > 0 then .ok ("mutation(" ++ queryArguments vars ++ ")" ++ q)
    else .ok ("mutation" ++ q)

/-! ## Response demultiplexer (the folding loop in Client.Query) -/

/-- One step of the folding loop of `Client.Query` for the original entry
`(k, v)`: keys without `__` are untouched; otherwise the value is appended to
the list under the target key (the portion of `k` before the first `__`),
a singleton list being created when the target key is absent, and the
suffixed key is deleted. A non-list value already sitting under the target
key makes the type assertion `subList.([]interface{})` panic, modelled as
`Except.error`. -/
def foldSteps (m : JMap) : List (String × JVal) → Except String JMap
  | [] => .ok m
  | (k, v) :: rest =>
    match splitPre k with
    | none => foldSteps m rest
    | some pre =>
      match mapLookup m pre with
      | some (.arr l) => foldSteps (mapErase (mapInsert m pre (.arr (l ++ [v]))) k) rest
      | some _ => .error "interface conversion: value under the target key is not a list"
      | none => foldSteps (mapErase (mapInsert m pre (.arr [v])) k) rest

/-- Embedding of the folding loop: the entries of the raw object are visited
in iteration order, each step reading and updating the same object. Visiting
the original entries with their original values is faithful because the loop
only ever inserts under keys without `__` (never revisited effectfully) and
only deletes the key currently being visited. -/
def foldRepetitions (raw : JMap) : Except String JMap :=
  foldSteps raw raw

/-- Whether an `Except` result is an error (a modelled panic). -/
def isErr {ε α : Type} : Except ε α → Bool
  | .error _ => true
  | .ok _ => false

/-! ## Derived definitions used to state the claims -/

/-- The list of per-field emissions of a struct's field list, in declaration
order (the text each loop iteration appends after its separator). -/
def fieldEmissions : GoFields → VarMap → Except String (List String)
  | .nil, _ => .ok []
  | .cons f fs, vars =>
    match writeField f vars with
    | .error e => .error e
    | .ok s =>
      match fieldEmissions fs vars with
      | .error e => .error e
      | .ok rest => .ok (s :: rest)

/-- Membership of a field in a declared field list. -/
def fieldMem (f : GoField) : GoFields → Prop
  | .nil => False
  | .cons g gs => f = g ∨ fieldMem f gs

/-- The keys of the original mapping that are bound to repetition groups. -/
def groupKeys : VarMap → List String
  | [] => []
  | (k, .group _) :: rest => k :: groupKeys rest
  | _ :: rest => groupKeys rest

/-- Non-degeneracy of a variable mapping for the rewriting loop: the produced
keys (flattened keys of group entries, original keys of the other entries)
are pairwise distinct, and no repetition-group key reappears among the
produced keys. Go maps guarantee distinct original keys; this condition
additionally rules out contrived collisions between a flattened key and
another entry's key. -/
def goodVars (vars : VarMap) : Prop :=
  ((producedPairs vars).map Prod.fst).Nodup ∧
    ∀ k ∈ groupKeys vars, k ∉ (producedPairs vars).map Prod.fst

instance (vars : VarMap) : Decidable (goodVars vars) := by
  unfold goodVars; infer_instance

/-! ## Concrete shapes and mappings used as witnesses and counterexamples -/

/-- A repeat-expanded field `Items` with tag `items(id:$id)`. -/
def exRepeatField : GoField := .mk "Items" false (some "items(id:$id)") (some "true") (.named "X")

/-- A two-element repetition group bound to `items`. -/
def exRepeatVars : VarMap :=
  [("items", .group [[("id", .prim (.named "Int"))], [("id", .prim (.named "Int"))]])]

/-- A struct with a single scalar field `A` aliased `a`. -/
def exQueryType : GoType :=
  .struct_ "" false (.cons (.mk "A" false (some "a") none (.named "Int")) .nil)

/-- A mapping with a one-element repetition group and an ordinary variable. -/
def exQueryVars : VarMap :=
  [("items", .group [[("id", .prim (.named "Int"))]]), ("n", .prim (.named "Int"))]

/-- Fields `A` (scalar, aliased `a`) and `E` (anonymous untagged scalar,
hence inlined with an empty emission). -/
def exInlineScalarFields : GoFields :=
  .cons (.mk "A" false (some "a") none (.named "Int"))
    (.cons (.mk "E" true none none (.named "int")) .nil)

/-- The struct declaring `exInlineScalarFields`. -/
def exInlineScalarType : GoType := .struct_ "" false exInlineScalarFields

/-- A struct whose only field is repeat-expanded and references variable
`items`. -/
def exBadExtendType : GoType :=
  .struct_ "" false (.cons (.mk "Items" false (some "items") (some "true") (.named "X")) .nil)

/-! ## Lemmas about association lists -/

theorem mapLookup_append {α : Type} (a b : List (String × α)) (k : String) :
    mapLookup (a ++ b) k =
      match mapLookup a k with
      | some v => some v
      | none => mapLookup b k := by
  induction a with
  | nil => simp [mapLookup]
  | cons p rest ih =>
    obtain ⟨k', v'⟩ := p
    by_cases h : k' = k
    · simp [mapLookup, h]
    · simpa [mapLookup, h] using ih

theorem mapLookup_eq_none_iff {α : Type} (l : List (String × α)) (k : String) :
    mapLookup l k = none ↔ k ∉ l.map Prod.fst := by
  induction l with
  | nil => simp [mapLookup]
  | cons p rest ih =>
    obtain ⟨k', v'⟩ := p
    simp only [mapLookup, List.map_cons, List.mem_cons]
    by_cases h : k' = k
    · subst h; simp
    · rw [if_neg h]
      constructor
      · intro h1 h2
        rcases h2 with h3 | h3
        · exact h h3.symm
        · exact (ih.mp h1) h3
      · intro h1
        exact ih.mpr (fun hm => h1 (Or.inr hm))

theorem mapLookup_of_mem_nodup {α : Type} (l : List (String × α)) (k : String) (v : α)
    (hnd : (l.map Prod.fst).Nodup) (hm : (k, v) ∈ l) : mapLookup l k = some v := by
  induction l with
  | nil => cases hm
  | cons p rest ih =>
    obtain ⟨k', v'⟩ := p
    rcases List.mem_cons.mp hm with h | h
    · obtain ⟨rfl, rfl⟩ := Prod.mk.injEq .. ▸ h
      simp [mapLookup]
    · have hk : k' ≠ k := by
        rintro rfl
        exact (List.nodup_cons.mp hnd).1
          (List.mem_map.mpr ⟨(k', v), h, rfl⟩)
      simpa [mapLookup, hk] using ih (List.nodup_cons.mp hnd).2 h

theorem mem_of_mapLookup_eq_some {α : Type} (l : List (String × α)) (k : String) (v : α)
    (h : mapLookup l k = some v) : (k, v) ∈ l := by
  induction l with
  | nil => simp [mapLookup] at h
  | cons p rest ih =>
    obtain ⟨k', v'⟩ := p
    by_cases hk : k' = k
    · subst hk
      simp [mapLookup] at h
      subst h
      exact List.mem_cons_self _ _
    · simp [mapLookup, hk] at h
      exact List.mem_cons_of_mem _ (ih h)

theorem mapInsert_of_lookup_none {α : Type} (l : List (String × α)) (k : String) (v : α)
    (h : mapLookup l k = none) : mapInsert l k v = l ++ [(k, v)] := by
  induction l with
  | nil => rfl
  | cons p rest ih =>
    obtain ⟨k', v'⟩ := p
    by_cases hk : k' = k
    · subst hk; simp [mapLookup] at h
    · simp [mapInsert, hk, ih (by simpa [mapLookup, hk] using h)]

theorem insertAll_eq_append :
    ∀ (l : List (String × GoVal)) (acc : VarMap),
      (∀ p ∈ l, mapLookup acc p.1 = none) → (l.map Prod.fst).Nodup →
      insertAll acc l = acc ++ l
  | [], acc, _, _ => by simp [insertAll]
  | (k, v) :: rest, acc, hfresh, hnd => by
    rw [insertAll,
      mapInsert_of_lookup_none acc k v (hfresh (k, v) (List.mem_cons_self _ _)),
      insertAll_eq_append rest (acc ++ [(k, v)]) ?_ (List.nodup_cons.mp hnd).2]
    · simp
    · intro p hp
      rw [mapLookup_append]
      have h1 := hfresh p (List.mem_cons_of_mem _ hp)
      have h2 : k ≠ p.1 := by
        rintro rfl
        exact (List.nodup_cons.mp hnd).1 (List.mem_map.mpr ⟨p, hp, rfl⟩)
      simp [h1, mapLookup, h2]

theorem rewriteVariables_eq (vars : VarMap)
    (hnd : ((producedPairs vars).map Prod.fst).Nodup) :
    rewriteVariables vars = producedPairs vars := by
  rw [rewriteVariables, insertAll_eq_append (producedPairs vars) [] (fun p _ => rfl) hnd]
  simp

/-! ## The lexicographic order used by the sort is total, transitive and
antisymmetric -/

theorem charListLe_total : ∀ a b : List Char, charListLe a b = true ∨ charListLe b a = true
  | [], _ => Or.inl rfl
  | _ :: _, [] => Or.inr rfl
  | a :: as, b :: bs => by
    by_cases h : a = b
    · subst h
      rcases charListLe_total as bs with h1 | h1
      · exact Or.inl (by simpa [charListLe] using h1)
      · exact Or.inr (by simpa [charListLe] using h1)
    · rcases Ne.lt_or_lt h with hlt | hlt
      · exact Or.inl (by simp [charListLe, h, hlt])
      · exact Or.inr (by simp [charListLe, Ne.symm h, hlt])

theorem charListLe_trans :
    ∀ a b c : List Char, charListLe a b = true → charListLe b c = true →
      charListLe a c = true
  | [], _, _, _, _ => rfl
  | _ :: _, [], _, h1, _ => by simp [charListLe] at h1
  | _ :: _, _ :: _, [], _, h2 => by simp [charListLe] at h2
  | a :: as, b :: bs, c :: cs, h1, h2 => by
    by_cases hab : a = b <;> by_cases hbc : b = c
    · have hac : a = c := hab.trans hbc
      subst hab; subst hbc
      simp only [charListLe, if_pos rfl] at h1 h2 ⊢
      exact charListLe_trans as bs cs h1 h2
    · have h2' : b < c := by simpa [charListLe, hbc] using h2
      have hac : a ≠ c := fun h => hbc (hab ▸ h)
      have : a < c := hab ▸ h2'
      simp [charListLe, hac, this]
    · have h1' : a < b := by simpa [charListLe, hab] using h1
      have hac : a ≠ c := fun h => hab (h.trans hbc.symm)
      have : a < c := hbc ▸ h1'
      simp [charListLe, hac, this]
    · have h1' : a < b := by simpa [charListLe, hab] using h1
      have h2' : b < c := by simpa [charListLe, hbc] using h2
      have hlt : a < c := h1'.trans h2'
      simp [charListLe, ne_of_lt hlt, hlt]

theorem charListLe_antisymm :
    ∀ a b : List Char, charListLe a b = true → charListLe b a = true → a = b
  | [], [], _, _ => rfl
  | [], _ :: _, _, h2 => by simp [charListLe] at h2
  | _ :: _, [], h1, _ => by simp [charListLe] at h1
  | a :: as, b :: bs, h1, h2 => by
    by_cases hab : a = b
    · subst hab
      simp only [charListLe, if_pos rfl] at h1 h2
      rw [charListLe_antisymm as bs h1 h2]
    · have h1' : a < b := by simpa [charListLe, hab] using h1
      have h2' : b < a := by simpa [charListLe, Ne.symm hab] using h2
      exact absurd h1' (lt_asymm h2')

instance : IsTotal String strLe := ⟨fun a b => charListLe_total a.data b.data⟩

instance : IsTrans String strLe := ⟨fun a b c => charListLe_trans a.data b.data c.data⟩

instance : IsAntisymm String strLe :=
  ⟨fun a b h1 h2 => by
    cases a; cases b
    exact congrArg String.mk (charListLe_antisymm _ _ h1 h2)⟩

/-! ## Lemmas about the folding loop and the field-emission loop -/

theorem foldSteps_of_noSep :
    ∀ (l : List (String × JVal)) (m : JMap),
      (∀ p ∈ l, splitPre p.1 = none) → foldSteps m l = .ok m
  | [], _, _ => rfl
  | (k, v) :: rest, m, h => by
    have hk : splitPre k = none := h (k, v) (List.mem_cons_self _ _)
    simp only [foldSteps, hk]
    exact foldSteps_of_noSep rest m (fun p hp => h p (List.mem_cons_of_mem _ hp))

theorem writeFields_of_emissions (vars : VarMap) :
    ∀ (fs : GoFields) (l : List String), fieldEmissions fs vars = .ok l →
      writeFields fs true vars = .ok (commaJoin l) ∧
      writeFields fs false vars = .ok (commaPre l)
  | .nil, l, h => by
    simp only [fieldEmissions] at h
    injection h with h2
    subst h2
    exact ⟨rfl, rfl⟩
  | .cons f fs, l, h => by
    simp only [fieldEmissions] at h
    cases hf : writeField f vars with
    | error e => rw [hf] at h; simp at h
    | ok s =>
      rw [hf] at h
      cases hrest : fieldEmissions fs vars with
      | error e => rw [hrest] at h; simp at h
      | ok rest =>
        rw [hrest] at h
        injection h with h2
        subst h2
        obtain ⟨h1, h2'⟩ := writeFields_of_emissions vars fs rest hrest
        constructor
        · simp [writeFields, hf, h2', commaJoin]
        · simp [writeFields, hf, h2', commaPre]

theorem writeFields_err_of_field (vars : VarMap) :
    ∀ (fs : GoFields) (f : GoField), fieldMem f fs →
      isErr (writeField f vars) = true →
      ∀ first, isErr (writeFields fs first vars) = true
  | .nil, _, hm, _, _ => absurd hm (by simp [fieldMem])
  | .cons g gs, f, hm, herr, first => by
    simp only [fieldMem] at hm
    rcases hm with rfl | hm2
    · cases hw : writeField f vars with
      | error e => simp [writeFields, hw, isErr]
      | ok s => rw [hw] at herr; simp [isErr] at herr
    · cases hw : writeField g vars with
      | error e => simp [writeFields, hw, isErr]
      | ok s =>
        have hrec := writeFields_err_of_field vars gs f hm2 herr false
        cases hr : writeFields gs false vars with
        | error e => simp [writeFields, hw, hr, isErr]
        | ok r => rw [hr] at hrec; simp [isErr] at hrec

theorem writeField_extend_err (fname : String) (anon : Bool) (tagG : Option String)
    (ty : GoType) (vars : VarMap)
    (hv : ∀ ms, mapLookup vars (fieldVar anon tagG) ≠ some (.group ms)) :
    isErr (writeField (.mk fname anon tagG (some "true") ty) vars) = true := by
  cases h : mapLookup vars (fieldVar anon tagG) with
  | none => simp [writeField, isErr, h]
  | some val =>
    cases val with
    | group ms => exact absurd h (hv ms)
    | prim t => simp [writeField, isErr, h]

/-! ## Theorems settling the claims -/

/-- C1 (evaluation at the failing input): the folding loop appends values in
map iteration order. Iterating the suffixed keys of the same raw object in
the two possible orders yields two different sequences under `field`; in
particular the order `field__1` before `field__0` — admissible because Go map
iteration order is unspecified — produces `[1, 0]`, not the ascending-suffix
order `[0, 1]` the claim requires. -/
theorem C1_fold_order_eval :
    foldRepetitions [("field__1", JVal.num 1), ("field__0", JVal.num 0)] =
      .ok [("field", JVal.arr [JVal.num 1, JVal.num 0])] ∧
    foldRepetitions [("field__0", JVal.num 0), ("field__1", JVal.num 1)] =
      .ok [("field", JVal.arr [JVal.num 0, JVal.num 1])] :=
  ⟨rfl, rfl⟩

/-- C8: the argument-type renderer maps a required variable of the `string`
scalar type to `$x:ID!`, the same type wrapped in a pointer (optional) to
`$x:ID` without the trailing `!`, and a required slice of the required `Int`
scalar to `$x:[Int!]!`. -/
theorem C8_argument_type_rendering :
    queryArguments [("x", .prim (.named "string"))] = "$x:ID!" ∧
    queryArguments [("x", .prim (.ptr (.named "string")))] = "$x:ID" ∧
    queryArguments [("x", .prim (.slice (.named "Int")))] = "$x:[Int!]!" ∧
    writeArgumentType (.named "string") true = "ID!" ∧
    writeArgumentType (.ptr (.named "string")) true = "ID" ∧
    writeArgumentType (.slice (.named "Int")) true = "[Int!]!" :=
  ⟨rfl, rfl, rfl, rfl, rfl, rfl⟩

/-- C9: folding a raw response object none of whose keys contains the
substring `__` returns the object unchanged: every key passes through with
its original value and no key is added or removed. -/
theorem C9_fold_identity_without_sep (raw : JMap)
    (h : ∀ p ∈ raw, splitPre p.1 = none) : foldRepetitions raw = .ok raw :=
  foldSteps_of_noSep raw raw h

/-- Witness for C9 at a concrete object with no `__` in any key. -/
theorem C9_fold_identity_without_sep_witness :
    foldRepetitions [("title", JVal.str "x"), ("id", JVal.num 7)] =
      .ok [("title", JVal.str "x"), ("id", JVal.num 7)] :=
  C9_fold_identity_without_sep [("title", JVal.str "x"), ("id", JVal.num 7)] (by decide)

/-- C10: when the raw object holds a repetition-suffixed key `items__0`
together with a non-sequence value under the target key `items`, the fold
aborts with the failed type assertion `subList.([]interface{})` (modelled as
the error result), in either iteration order, instead of coercing the value
into a sequence or returning a folded object. -/
theorem C10_fold_panics_on_nonlist_target (v : JVal) (n : Int) :
    isErr (foldRepetitions [("items", JVal.num n), ("items__0", v)]) = true ∧
    isErr (foldRepetitions [("items__0", v), ("items", JVal.num n)]) = true :=
  ⟨rfl, rfl⟩

/-- C5 counterexample: with an empty variable mapping the query path emits
the bare selection set while the mutation path still prepends its keyword,
so the mutation document is not the query-path document with the leading
keyword `query` replaced by `mutation` (the query-path document has no
leading keyword to replace). -/
theorem C5_keyword_identity_refuted :
    ConstructQuery exQueryType [] = .ok ("\x7ba\x7d", []) ∧
    ConstructMutation exQueryType [] = .ok "mutation\x7ba\x7d" ∧
    "mutation\x7ba\x7d" ≠ "\x7ba\x7d" :=
  ⟨rfl, rfl, by decide⟩

/-- C5 (amended): with a non-empty variable mapping, `ConstructMutation`
returns `mutation(<args>)<selection>` with the argument clause computed from
the original, unrewritten mapping (repetition groups left unexploded); with
an empty mapping it returns `mutation<selection>`, retaining the leading
keyword, whereas the query path returns the bare selection set. -/
theorem C5_mutation_document (t : GoType) (vars : VarMap) (q : String)
    (hq : queryStr t vars = .ok q) :
    (vars = [] → ConstructMutation t vars = .ok ("mutation" ++ q) ∧
      ConstructQuery t vars = .ok (q, [])) ∧
    (vars ≠ [] →
      ConstructMutation t vars = .ok ("mutation(" ++ queryArguments vars ++ ")" ++ q)) := by
  constructor
  · rintro rfl
    exact ⟨by simp [ConstructMutation, hq], by simp [ConstructQuery, hq]⟩
  · intro hne
    have hlen : 0 < vars.length := List.length_pos.mpr hne
    simp only [ConstructMutation, hq]
    rw [if_pos hlen]

/-- Witness for C5 at a concrete shape and the empty mapping. -/
theorem C5_mutation_document_witness :
    ConstructMutation exQueryType [] = .ok "mutation\x7ba\x7d" ∧
    ConstructQuery exQueryType [] = .ok ("\x7ba\x7d", []) :=
  (C5_mutation_document exQueryType [] "\x7ba\x7d" rfl).1 rfl

/-- C6 counterexample: in the struct declaring a tagged scalar field `A`
(emission `a`) followed by an anonymous untagged scalar field (empty
emission), the compiler still writes the separator of the second field, so
the output is `{a,}` and not the `{a}` that joining only the non-empty
emissions would give. -/
theorem C6_join_skips_empty_refuted :
    fieldEmissions exInlineScalarFields [] = .ok ["a", ""] ∧
    queryStr exInlineScalarType [] = .ok "\x7ba,\x7d" ∧
    "\x7ba,\x7d" ≠ "\x7b" ++ commaJoin (["a", ""].filter (fun s => !(s == ""))) ++ "\x7d" :=
  ⟨rfl, rfl, by decide⟩

/-- C6 (amended): compiling a non-inlined composite (struct not implementing
`json.Unmarshaler`) wraps the output in braces and joins the per-field
emissions, taken in declaration order, with `,` — all emissions, including
empty ones, each non-first field contributing its separator regardless. -/
theorem C6_struct_emission (nm : String) (fs : GoFields) (vars : VarMap)
    (l : List String) (h : fieldEmissions fs vars = .ok l) :
    writeQuery (.struct_ nm false fs) false vars =
      .ok ("\x7b" ++ commaJoin l ++ "\x7d") := by
  have h1 := (writeFields_of_emissions vars fs l h).1
  simp [writeQuery, h1]

/-- Witness for C6 at the two-field struct with one empty emission. -/
theorem C6_struct_emission_witness :
    writeQuery exInlineScalarType false [] = .ok "\x7ba,\x7d" :=
  C6_struct_emission "" exInlineScalarFields [] ["a", ""] rfl

/-- C7: a field marked for repeat expansion whose variable is absent from
the mapping, or bound to a value that is not a repetition group, makes the
compilation of any struct declaring that field abort with the failed type
assertion (modelled as the error result) — no document is produced. -/
theorem C7_extend_bad_variable_aborts (nm fname : String) (anon : Bool)
    (tagG : Option String) (ty : GoType) (fs : GoFields) (vars : VarMap)
    (hmem : fieldMem (.mk fname anon tagG (some "true") ty) fs)
    (hv : ∀ ms, mapLookup vars (fieldVar anon tagG) ≠ some (.group ms)) :
    isErr (queryStr (.struct_ nm false fs) vars) = true := by
  have h1 := writeField_extend_err fname anon tagG ty vars hv
  have h2 := writeFields_err_of_field vars fs _ hmem h1 true
  cases hr : writeFields fs true vars with
  | error e => simp [queryStr, writeQuery, hr, isErr]
  | ok body => rw [hr] at h2; simp [isErr] at h2

/-- Witness for C7: the struct whose only field is repeat-expanded on the
variable `items`, compiled against the empty mapping. -/
theorem C7_extend_bad_variable_aborts_witness :
    isErr (queryStr exBadExtendType []) = true :=
  C7_extend_bad_variable_aborts "" "Items" false (some "items") (.named "X")
    (.cons (.mk "Items" false (some "items") (some "true") (.named "X")) .nil) []
    (Or.inl rfl) (fun _ h => nomatch h)

/-! ## Lemmas about the rewriting loop's produced pairs -/

theorem mem_explodeAux (k sk : String) (sv : GoVal) :
    ∀ (ms : List (List (String × GoVal))) (i j : Nat) (sub : List (String × GoVal)),
      ms[i]? = some sub → (sk, sv) ∈ sub →
      (flatKey k (j + i) sk, sv) ∈ explodeAux k j ms
  | [], i, _, _, h, _ => by simp at h
  | m :: rest, 0, j, sub, h, hm => by
    simp only [List.getElem?_cons_zero, Option.some.injEq] at h
    subst h
    rw [explodeAux, Nat.add_zero]
    exact List.mem_append.mpr (Or.inl (List.mem_map.mpr ⟨(sk, sv), hm, rfl⟩))
  | m :: rest, i + 1, j, sub, h, hm => by
    have hrec := mem_explodeAux k sk sv rest i (j + 1) sub (by simpa using h) hm
    have harith : j + 1 + i = j + (i + 1) := by omega
    rw [harith] at hrec
    rw [explodeAux]
    exact List.mem_append.mpr (Or.inr hrec)

theorem mem_producedPairs :
    ∀ (vars : VarMap) (e p : String × GoVal),
      e ∈ vars → p ∈ explodeEntry e → p ∈ producedPairs vars
  | [], e, _, he, _ => absurd he (List.not_mem_nil e)
  | _ :: rest, e, p, he, hp => by
    rw [producedPairs]
    rcases List.mem_cons.mp he with rfl | h2
    · exact List.mem_append.mpr (Or.inl hp)
    · exact List.mem_append.mpr (Or.inr (mem_producedPairs rest e p h2 hp))

theorem mem_groupKeys :
    ∀ (vars : VarMap) (k : String) (ms : List (List (String × GoVal))),
      (k, GoVal.group ms) ∈ vars → k ∈ groupKeys vars
  | [], _, _, h => absurd h (List.not_mem_nil _)
  | (k0, v0) :: rest, k, ms, h => by
    rcases List.mem_cons.mp h with heq | h2
    · obtain ⟨h1, h2'⟩ := Prod.mk.injEq .. ▸ heq
      subst h1
      subst h2'
      rw [groupKeys]
      exact List.mem_cons_self _ _
    · cases v0 with
      | group ms2 => exact List.mem_cons_of_mem _ (mem_groupKeys rest k ms h2)
      | prim t => exact mem_groupKeys rest k ms h2

theorem explodeEntry_of_nonGroup (k : String) (v : GoVal)
    (h : ∀ ms, v ≠ .group ms) : explodeEntry (k, v) = [(k, v)] := by
  cases v with
  | group ms => exact absurd rfl (h ms)
  | prim t => rfl

theorem mapLookup_perm {α : Type} (a b : List (String × α)) (hp : List.Perm a b)
    (hnd : (a.map Prod.fst).Nodup) (k : String) : mapLookup a k = mapLookup b k := by
  have hnd2 : (b.map Prod.fst).Nodup := ((hp.map Prod.fst).nodup_iff).mp hnd
  cases h : mapLookup a k with
  | some v =>
    exact (mapLookup_of_mem_nodup b k v hnd2
      (hp.mem_iff.mp (mem_of_mapLookup_eq_some a k v h))).symm
  | none =>
    have h1 := (mapLookup_eq_none_iff a k).mp h
    exact ((mapLookup_eq_none_iff b k).mpr
      (fun hm => h1 (((hp.map Prod.fst).mem_iff).mpr hm))).symm

/-! ## Theorems settling the remaining claims -/

/-- C2: for a field marked repeat expansion whose `graphql` tag yields the
variable name `varHead gval`, bound in the mapping to a repetition group of
length N, the compiler emits N copies joined by `,`, the i-th copy being the
prefix `var__i:`, then the tag text with every `$` replaced by `$var__i__`,
then the recursive compilation of the field's subtype with the field's
(unchanged) inline flag — false, since the tag is present. -/
theorem C2_repeat_expansion (fname : String) (anon : Bool) (gval : String)
    (ty : GoType) (vars : VarMap) (ms : List (List (String × GoVal))) (sub : String)
    (hv : mapLookup vars (varHead gval) = some (.group ms))
    (hsub : writeQuery ty false vars = .ok sub) :
    writeField (.mk fname anon (some gval) (some "true") ty) vars =
      .ok (commaJoin ((List.range ms.length).map (fun i =>
        varHead gval ++ "__" ++ toString i ++ ":" ++
        replaceDollar gval ("$" ++ varHead gval ++ "__" ++ toString i ++ "__") ++
        sub))) := by
  by_cases hms : ms.length = 0
  · simp [writeField, fieldVar, hv, hms, commaJoin]
  · simp [writeField, fieldVar, fieldValue, hv, hms, hsub]

/-- Witness for C2 at the field `Items` with tag `items(id:$id)` and a
two-element repetition group. -/
theorem C2_repeat_expansion_witness :
    writeField exRepeatField exRepeatVars =
      .ok "items__0:items(id:$items__0__id),items__1:items(id:$items__1__id)" :=
  C2_repeat_expansion "Items" false "items(id:$id)" (.named "X") exRepeatVars
    [[("id", .prim (.named "Int"))], [("id", .prim (.named "Int"))]] "" rfl rfl

/-- C3: with a non-empty variable mapping (non-degenerate in the sense of
`goodVars`), `ConstructQuery` returns the document
`query(<args of the rewritten mapping>)<selection>` together with the
rewritten mapping, in which every repetition-group entry is replaced by its
flattened entries `name__i__subKey` bound to the corresponding sub-values,
the original group key is absent, and every non-group entry is carried over
unchanged; with an empty mapping it returns the bare selection set and the
unchanged mapping. -/
theorem C3_construct_query (t : GoType) (vars : VarMap) (q : String)
    (hq : queryStr t vars = .ok q) (hne : vars ≠ []) (hg : goodVars vars) :
    ConstructQuery t vars =
      .ok ("query(" ++ queryArguments (rewriteVariables vars) ++ ")" ++ q,
        rewriteVariables vars) ∧
    (∀ k ms, (k, GoVal.group ms) ∈ vars →
      mapLookup (rewriteVariables vars) k = none) ∧
    (∀ k ms i sub sk sv, (k, GoVal.group ms) ∈ vars → ms[i]? = some sub →
      (sk, sv) ∈ sub →
      mapLookup (rewriteVariables vars) (flatKey k i sk) = some sv) ∧
    (∀ k v, (k, v) ∈ vars → (∀ ms, v ≠ GoVal.group ms) →
      mapLookup (rewriteVariables vars) k = some v) ∧
    (∀ (t2 : GoType) (q2 : String), queryStr t2 [] = .ok q2 →
      ConstructQuery t2 [] = .ok (q2, [])) := by
  obtain ⟨hnd, habs⟩ := hg
  have hre := rewriteVariables_eq vars hnd
  refine ⟨?_, ?_, ?_, ?_, ?_⟩
  · have hlen : 0 < vars.length := List.length_pos.mpr hne
    simp only [ConstructQuery, hq]
    rw [if_pos hlen]
  · intro k ms hm
    rw [hre, mapLookup_eq_none_iff]
    exact habs k (mem_groupKeys vars k ms hm)
  · intro k ms i sub sk sv hm hget hsk
    rw [hre]
    apply mapLookup_of_mem_nodup _ _ _ hnd
    refine mem_producedPairs vars (k, .group ms) _ hm ?_
    rw [explodeEntry]
    have := mem_explodeAux k sk sv ms i 0 sub hget hsk
    simpa using this
  · intro k v hm hng
    rw [hre]
    apply mapLookup_of_mem_nodup _ _ _ hnd
    refine mem_producedPairs vars (k, v) (k, v) hm ?_
    rw [explodeEntry_of_nonGroup k v hng]
    exact List.mem_singleton.mpr rfl
  · intro t2 q2 h2
    simp [ConstructQuery, h2]

/-- Witness for C3 at a one-field shape with a one-element repetition group
and an ordinary variable: the document carries the exploded argument clause,
the returned mapping is the exploded one, and the original group key is
gone. -/
theorem C3_construct_query_witness :
    ConstructQuery exQueryType exQueryVars =
      .ok ("query($items__0__id:Int!$n:Int!)\x7ba\x7d",
        [("items__0__id", GoVal.prim (.named "Int")), ("n", GoVal.prim (.named "Int"))]) ∧
    mapLookup (rewriteVariables exQueryVars) "items" = none :=
  ⟨(C3_construct_query exQueryType exQueryVars "\x7ba\x7d" rfl
      (by simp [exQueryVars]) (by decide)).1,
   (C3_construct_query exQueryType exQueryVars "\x7ba\x7d" rfl
      (by simp [exQueryVars]) (by decide)).2.1 "items"
      [[("id", .prim (.named "Int"))]] (by simp [exQueryVars])⟩

/-- C4: the argument encoder emits one `$name:Type` segment per variable
with no separator, the segments ordered lexicographically by variable name,
and its output is a function of the mapping's contents only — any
permutation of the entries (any map iteration order) yields the same
string. -/
theorem C4_arguments_sorted_deterministic (vars vars2 : VarMap)
    (hp : List.Perm vars vars2) (hnd : (vars.map Prod.fst).Nodup) :
    queryArguments vars = queryArguments vars2 ∧
    queryArguments vars =
      String.join ((sortStrings (vars.map Prod.fst)).map (argSegment vars)) ∧
    (sortStrings (vars.map Prod.fst)).Sorted strLe := by
  have hkeys : sortStrings (vars.map Prod.fst) = sortStrings (vars2.map Prod.fst) := by
    unfold sortStrings
    exact List.eq_of_perm_of_sorted
      ((List.perm_insertionSort strLe _).trans
        ((hp.map Prod.fst).trans (List.perm_insertionSort strLe _).symm))
      (List.sorted_insertionSort strLe _)
      (List.sorted_insertionSort strLe _)
  have hseg : argSegment vars = argSegment vars2 := by
    funext k
    unfold argSegment
    rw [mapLookup_perm vars vars2 hp hnd k]
  refine ⟨?_, rfl, List.sorted_insertionSort strLe _⟩
  unfold queryArguments
  rw [hkeys, hseg]

/-- Witness for C4: two iteration orders of the same two-variable mapping
produce the same sorted argument clause. -/
theorem C4_arguments_sorted_deterministic_witness :
    queryArguments [("b", GoVal.prim (.named "Int")), ("a", GoVal.prim (.named "Boolean"))] =
      queryArguments [("a", GoVal.prim (.named "Boolean")), ("b", GoVal.prim (.named "Int"))] ∧
    queryArguments [("b", GoVal.prim (.named "Int")), ("a", GoVal.prim (.named "Boolean"))] =
      "$a:Boolean!$b:Int!" :=
  ⟨(C4_arguments_sorted_deterministic _ _ (List.Perm.swap _ _ _) (by decide)).1, rfl⟩

end MericoGraphql
